import Mathlib

/-!
Verification development for the GrubaRyba game engine header
(src/mojagrubaryba.h). The file shallowly embeds the function bodies that
exist in the source and, where the source gives only declarations, models
the behaviour from the specification (each such definition says so in its
doc comment). Machine integers are modelled as Int with explicit two's
complement wraparound at 32 bits where the C++ `int` can overflow.
-/

/-- Two's complement wraparound of an Int to the 32-bit signed range,
modelling C++ `int` overflow behaviour (as 2^31 = 2147483648 and
2^32 = 4294967296). -/
def wrap32 (x : Int) : Int := (x + 2147483648) % 4294967296 - 2147483648

/-- Number of iterations of the loop `for (int i = from + 1; i != to; i++)`
in Board::playerSteppedOnField (src lines 257-259) under 32-bit wraparound
of `i`: the least k with wrap32 (frm + 1 + k) = tgt, namely
(tgt - (frm + 1)) mod 2^32. -/
def loopLen (frm tgt : Int) : Nat := ((tgt - (frm + 1)) % 4294967296).toNat

/-- The indices i, in order, at which the loop of
Board::playerSteppedOnField calls fields[i]->onPassBy(player). The source
loop has no modulo on i, so these are the raw successive values of the
C++ `int` counter. -/
def passByIndices (frm tgt : Int) : List Int :=
  (List.range (loopLen frm tgt)).map (fun (k : Nat) => wrap32 (frm + 1 + (k : Int)))

/-- `int to = (from + howFar) % fields.size();` (src line 256), for a board
of length L. For the non-negative arguments of the claims this is plain
Euclidean remainder. -/
def landingIndex (L : Nat) (frm howFar : Int) : Int := (frm + howFar) % (L : Int)

/-- The observable effect trace of one call to
Board::playerSteppedOnField: the indices receiving onPassBy in order, the
index receiving onStepOn, and the returned position. -/
structure TraceResult where
  passBy : List Int
  stepOn : Int
  ret : Int
deriving DecidableEq, Repr

/-- Embedding of Board::playerSteppedOnField (src lines 255-262):
computes to, runs the pass-by loop (without modulo on the counter), then
fires onStepOn at to and returns to. -/
def Board.playerSteppedOnField (L : Nat) (frm howFar : Int) : TraceResult :=
  { passBy := passByIndices frm (landingIndex L frm howFar)
    stepOn := landingIndex L frm howFar
    ret := landingIndex L frm howFar }

/-- What the spec prescribes for the pass-by indices: the cyclic indices
strictly between the start and the landing position, walking forward with
wraparound (used to contrast with what the source loop does). -/
def specPassByIndices (L : Nat) (frm : Int) (steps : Nat) : List Int :=
  (List.range ((steps % L + L - 1) % L)).map (fun k => (frm + 1 + k) % (L : Int))

theorem landingIndex_8_5 : landingIndex 10 8 5 = 3 := by decide

theorem loopLen_8_3 : loopLen 8 3 = 4294967290 := by unfold loopLen; omega

theorem passBy_8_5_eq : (Board.playerSteppedOnField 10 8 5).passBy = passByIndices 8 3 := by
  simp [Board.playerSteppedOnField, landingIndex_8_5]

/-- Shared helper: on Scenario A (length 10, from 8, roll 5) the pass-by
loop reaches index 10, one past the end of the board. -/
theorem passBy_8_5_mem_ten : (10 : Int) ∈ (Board.playerSteppedOnField 10 8 5).passBy := by
  rw [passBy_8_5_eq]
  have h1 : 1 < loopLen 8 3 := by unfold loopLen; omega
  have h2 : wrap32 (8 + 1 + ((1 : Nat) : Int)) = 10 := by unfold wrap32; omega
  exact List.mem_map.mpr ⟨1, List.mem_range.mpr h1, h2⟩

/-- Claim C1. The claim says the traversal passes by exactly the cyclic
indices strictly between fromPosition and to (on board length 10, from 8
with roll 5: fields 9, 0, 1, 2) before stepping on to = 3. The code
computes to = 3 but its pass-by loop has no modulo: it fires onPassBy at
4294967290 successive counter values (9, 10, 11, ... through 32-bit
wraparound), not at the four cyclic indices; index 10 is among them. -/
theorem board_traversal_scenarioA_bug :
    (Board.playerSteppedOnField 10 8 5).ret = 3 ∧
    (Board.playerSteppedOnField 10 8 5).passBy ≠ [9, 0, 1, 2] ∧
    (Board.playerSteppedOnField 10 8 5).passBy.length = 4294967290 ∧
    (10 : Int) ∈ (Board.playerSteppedOnField 10 8 5).passBy ∧
    specPassByIndices 10 8 5 = [9, 0, 1, 2] := by
  have hlen : (Board.playerSteppedOnField 10 8 5).passBy.length = 4294967290 := by
    rw [passBy_8_5_eq]
    simp only [passByIndices, List.length_map, List.length_range]
    unfold loopLen; omega
  refine ⟨by decide, ?_, hlen, passBy_8_5_mem_ten, by decide⟩
  intro h
  have := congrArg List.length h
  rw [hlen] at this
  simp at this

/-- Claim C2. The claim says every field access stays in the range
0 ≤ i < L. On board length 10, from 8 with roll 5 the pass-by loop
accesses index 10, which is out of bounds. -/
theorem board_traversal_out_of_bounds :
    ∃ i ∈ (Board.playerSteppedOnField 10 8 5).passBy, ¬(0 ≤ i ∧ i < 10) :=
  ⟨10, passBy_8_5_mem_ten, by decide⟩

/-- Claim C3. The claim says a full lap (steps mod length = 0) passes by
no field and steps on the start. The code does land (onStepOn) back on the
start, but the pass-by loop starts at from + 1 and only stops when the
counter equals to = from again, which takes 2^32 - 1 = 4294967295
iterations of onPassBy (almost all out of bounds) instead of zero. -/
theorem board_traversal_full_lap_bug :
    (Board.playerSteppedOnField 10 2 10).stepOn = 2 ∧
    (Board.playerSteppedOnField 10 2 10).passBy ≠ [] ∧
    (Board.playerSteppedOnField 10 2 10).passBy.length = 4294967295 := by
  have h2 : landingIndex 10 2 10 = 2 := by decide
  have hlen : (Board.playerSteppedOnField 10 2 10).passBy.length = 4294967295 := by
    simp only [Board.playerSteppedOnField, h2]
    simp only [passByIndices, List.length_map, List.length_range]
    unfold loopLen; omega
  refine ⟨by decide, ?_, hlen⟩
  intro h
  have := congrArg List.length h
  rw [hlen] at this
  simp at this

/-- Configuration and match-end errors declared in the source
(NoDieException src lines 88-92, TooFewPlayersException src lines 102-108,
TooManyPlayersException src lines 94-100; the latter two carry the
configured bound). -/
inductive GameExc where
  | noDie : GameExc
  | tooFewPlayers (bound : Nat) : GameExc
  | tooManyPlayers (bound : Nat) : GameExc
deriving DecidableEq, Repr

/-- Embedding of the inner loop of MojaGrubaRyba::play (src lines 131-134):
for each player in order, first test isGameOn and return early when it is
false, otherwise roll that player. Returns the new state, the indices of
the players who moved this round in order, and whether the early return
fired. -/
def playRound {S : Type} (isGameOn : S → Bool) (rollP : S → Nat → S) :
    S → List Nat → S × List Nat × Bool
  | s, [] => (s, [], false)
  | s, p :: ps =>
    if isGameOn s then
      let rest := playRound isGameOn rollP (rollP s p) ps
      (rest.1, p :: rest.2.1, rest.2.2)
    else (s, [], true)

/-- Embedding of the outer `while (rounds--)` loop of MojaGrubaRyba::play
(src lines 129-135): runs up to the given number of rounds, stopping after
a round in which the early return fired. Returns the final state and the
per-round lists of players who moved. -/
def playLoop {S : Type} (isGameOn : S → Bool) (rollP : S → Nat → S)
    (players : List Nat) : S → Nat → S × List (List Nat)
  | s, 0 => (s, [])
  | s, r + 1 =>
    let rd := playRound isGameOn rollP s players
    if rd.2.2 then (rd.1, [rd.2.1])
    else
      let rest := playLoop isGameOn rollP players rd.1 r
      (rest.1, rd.2.1 :: rest.2)

/-- Embedding of MojaGrubaRyba::play (src lines 128-136). The body is only
the round loop: it contains no check of the die member and no throw
statement, so it returns normally for every configuration; the stored die
(none when setDie was never called with a non-null die) is merely passed
down to each Player::roll call. -/
def MojaGrubaRyba.play {S D : Type} (die : Option D) (isGameOn : S → Bool)
    (rollP : S → Option D → Nat → S) (players : List Nat) (s : S)
    (rounds : Nat) : Except GameExc (S × List (List Nat)) :=
  Except.ok (playLoop isGameOn (fun st p => rollP st die p) players s rounds)

theorem playRound_moves_le {S : Type} (isGameOn : S → Bool)
    (rollP : S → Nat → S) (s : S) (players : List Nat) :
    (playRound isGameOn rollP s players).2.1.length ≤ players.length := by
  induction players generalizing s with
  | nil => simp [playRound]
  | cons p ps ih =>
    simp only [playRound]
    by_cases h : isGameOn s = true
    · simp only [h, if_true, List.length_cons]
      exact Nat.succ_le_succ (ih _)
    · simp only [Bool.not_eq_true] at h
      simp [h]

theorem playLoop_rounds_le {S : Type} (isGameOn : S → Bool)
    (rollP : S → Nat → S) (players : List Nat) (s : S) (rounds : Nat) :
    (playLoop isGameOn rollP players s rounds).2.length ≤ rounds := by
  induction rounds generalizing s with
  | zero => simp [playLoop]
  | succ r ih =>
    simp only [playLoop]
    by_cases h : (playRound isGameOn rollP s players).2.2 = true
    · simp [h]
    · simp only [Bool.not_eq_true] at h
      simp only [h, Bool.false_eq_true, if_false, List.length_cons]
      exact Nat.succ_le_succ (ih _)

theorem playLoop_round_moves_le {S : Type} (isGameOn : S → Bool)
    (rollP : S → Nat → S) (players : List Nat) (s : S) (rounds : Nat) :
    ∀ ms ∈ (playLoop isGameOn rollP players s rounds).2,
      ms.length ≤ players.length := by
  induction rounds generalizing s with
  | zero => simp [playLoop]
  | succ r ih =>
    simp only [playLoop]
    by_cases h : (playRound isGameOn rollP s players).2.2 = true
    · simp only [h, if_true]
      intro ms hms
      simp only [List.mem_singleton] at hms
      subst hms
      exact playRound_moves_le _ _ _ _
    · simp only [Bool.not_eq_true] at h
      simp only [h, Bool.false_eq_true, if_false]
      intro ms hms
      rcases List.mem_cons.mp hms with h1 | h2
      · subst h1; exact playRound_moves_le _ _ _ _
      · exact ih _ ms h2

/-- Claim C4. For every configuration (any die, any isGameOn predicate,
any behaviour of Player::roll, any players, any starting state) play runs
at most the requested number of rounds, each round moving each player at
most once, and every Board::playerSteppedOnField traversal it could invoke
performs a finite number of pass-by iterations, below 2^32. -/
theorem play_terminates_bounded {S D : Type} (die : Option D)
    (isGameOn : S → Bool) (rollP : S → Option D → Nat → S)
    (players : List Nat) (s : S) (rounds : Nat) :
    (∃ out, MojaGrubaRyba.play die isGameOn rollP players s rounds =
        Except.ok out ∧
      out.2.length ≤ rounds ∧
      ∀ ms ∈ out.2, ms.length ≤ players.length) ∧
    ∀ L frm howFar,
      (Board.playerSteppedOnField L frm howFar).passBy.length < 4294967296 := by
  constructor
  · refine ⟨_, rfl, playLoop_rounds_le _ _ _ _ _,
      playLoop_round_moves_le _ _ _ _ _⟩
  · intro L frm howFar
    simp only [Board.playerSteppedOnField, passByIndices, List.length_map,
      List.length_range]
    unfold loopLen
    omega

/-- Claim C5. The claim (and the interface comment at src line 42) says
play raises NoDieException when no die has been set, performing no partial
round. The implemented body (src lines 128-136) has no die check and no
throw: with die unset it raises nothing for any configuration, and in a
concrete one-player game it runs a full round, moving player 0, despite
the missing die. -/
theorem play_noDie_does_not_throw {S D : Type} (isGameOn : S → Bool)
    (rollP : S → Option D → Nat → S) (players : List Nat) (s : S)
    (rounds : Nat) :
    (∀ e : GameExc,
      MojaGrubaRyba.play none isGameOn rollP players s rounds ≠
        Except.error e) ∧
    @MojaGrubaRyba.play Unit Unit none (fun _ => true) (fun st _ _ => st)
        [0] () 1 = Except.ok ((), [[0]]) := by
  constructor
  · intro e h
    simp only [MojaGrubaRyba.play] at h
    exact Except.noConfusion h
  · rfl

/-- Modelled from the spec: the liquidity-shortfall protocol. The source
only declares Player::wantSell (src line 152) and the Human interface
comment (src lines 63-68) says the player is asked about all owned fields;
no body for the protocol exists under src. Per the spec, the engine asks
wantSell for every currently owned property in holding order, sells every
property answered yes, and never stops the pass early, even once the cash
raised covers the owed amount. Returns the names queried in order, the
names sold, and the final cash. -/
def shortfallPass (wantSell : String → Bool) (price : String → Int)
    (owed : Int) : List String → Int → List String × List String × Int
  | [], cash => ([], [], cash)
  | p :: ps, cash =>
    let sells := wantSell p
    let rest := shortfallPass wantSell price owed ps
      (if sells then cash + price p else cash)
    (p :: rest.1, (if sells then [p] else []) ++ rest.2.1, rest.2.2)

/-- Claim C6. Whenever the liquidity-shortfall protocol runs, the names
queried by wantSell are exactly the player's owned properties, in holding
order, for every decision strategy, price table, owed amount and starting
cash: the pass is full and never short-circuits. -/
theorem shortfall_queries_all_properties (wantSell : String → Bool)
    (price : String → Int) (owed : Int) (owned : List String) (cash : Int) :
    (shortfallPass wantSell price owed owned cash).1 = owned := by
  induction owned generalizing cash with
  | nil => rfl
  | cons p ps ih => simp [shortfallPass, ih]

/-- Player status per the spec data model (Active or Bankrupt). -/
inductive PStatus where
  | Active : PStatus
  | Bankrupt : PStatus
deriving DecidableEq, Repr

/-- A player's economic state per the spec data model: cash, status, and
the owned properties in holding order (Player::cash, Player::properties,
src lines 154-156). -/
structure PlayerSt where
  cash : Int
  status : PStatus
  properties : List String
deriving DecidableEq, Repr

/-- Modelled from the spec: the game operations that touch a player's
cash, status or property set. Player::bankrupt (src line 153) and the
buy/sell/fee paths are only declared in the source; per the spec the
bankruptcy transition releases all owned properties, and a Bankrupt player
is excluded from turns, so no purchase, sale or cash movement targets a
Bankrupt player. -/
inductive GameOp where
  | goBankrupt (i : Nat)
  | buyProp (i : Nat) (p : String) (price : Int)
  | sellProp (i : Nat) (p : String) (price : Int)
  | adjustCash (i : Nat) (amount : Int)
deriving Repr

/-- Replaces the i-th player by f applied to it (identity out of range). -/
def updatePlayer : List PlayerSt → Nat → (PlayerSt → PlayerSt) → List PlayerSt
  | [], _, _ => []
  | pl :: ps, 0, f => f pl :: ps
  | pl :: ps, i + 1, f => pl :: updatePlayer ps i f

/-- Modelled from the spec: the effect of one game operation on the player
list. Bankruptcy sets the status and releases every owned property; the
other operations only apply to an Active player. -/
def applyOp (ps : List PlayerSt) : GameOp → List PlayerSt
  | GameOp.goBankrupt i =>
      updatePlayer ps i (fun pl => ⟨pl.cash, PStatus.Bankrupt, []⟩)
  | GameOp.buyProp i p price =>
      updatePlayer ps i (fun pl =>
        if pl.status = PStatus.Active then
          ⟨pl.cash - price, pl.status, pl.properties ++ [p]⟩
        else pl)
  | GameOp.sellProp i p price =>
      updatePlayer ps i (fun pl =>
        if pl.status = PStatus.Active then
          ⟨pl.cash + price, pl.status, pl.properties.filter (fun q => q ≠ p)⟩
        else pl)
  | GameOp.adjustCash i a =>
      updatePlayer ps i (fun pl =>
        if pl.status = PStatus.Active then ⟨pl.cash + a, pl.status, pl.properties⟩
        else pl)

/-- Folds a sequence of game operations over the player list. -/
def applyOps (ps : List PlayerSt) (ops : List GameOp) : List PlayerSt :=
  ops.foldl applyOp ps

/-- The join-order indices of the players taking part in a round, per the
spec round loop: each non-Bankrupt player in join order. -/
def turnOrderAux : Nat → List PlayerSt → List Nat
  | _, [] => []
  | i, pl :: ps =>
    if pl.status = PStatus.Active then i :: turnOrderAux (i + 1) ps
    else turnOrderAux (i + 1) ps

/-- The turn order of a player list, starting the numbering at 0. -/
def turnOrder (ps : List PlayerSt) : List Nat := turnOrderAux 0 ps

/-- The C7 invariant: every Bankrupt player owns zero properties. -/
def bankruptOwnsNothing (ps : List PlayerSt) : Prop :=
  ∀ pl ∈ ps, pl.status = PStatus.Bankrupt → pl.properties = []

theorem updatePlayer_forall {P : PlayerSt → Prop} :
    ∀ (ps : List PlayerSt) (i : Nat) (f : PlayerSt → PlayerSt),
      (∀ pl ∈ ps, P pl) → (∀ pl, P pl → P (f pl)) →
      ∀ pl ∈ updatePlayer ps i f, P pl := by
  intro ps
  induction ps with
  | nil => intro i f _ _ pl hpl; simp [updatePlayer] at hpl
  | cons q qs ih =>
    intro i f hps hf pl hpl
    cases i with
    | zero =>
      simp only [updatePlayer] at hpl
      rcases List.mem_cons.mp hpl with h1 | h2
      · subst h1; exact hf q (hps q (List.mem_cons_self q qs))
      · exact hps pl (List.mem_cons_of_mem q h2)
    | succ j =>
      simp only [updatePlayer] at hpl
      rcases List.mem_cons.mp hpl with h1 | h2
      · subst h1; exact hps pl (List.mem_cons_self pl qs)
      · exact ih j f (fun r hr => hps r (List.mem_cons_of_mem q hr)) hf pl h2

theorem applyOp_preserves (ps : List PlayerSt) (op : GameOp)
    (h : bankruptOwnsNothing ps) : bankruptOwnsNothing (applyOp ps op) := by
  cases op with
  | goBankrupt i =>
    exact updatePlayer_forall ps i _ h (fun pl _ _ => rfl)
  | buyProp i p price =>
    refine updatePlayer_forall ps i _ h (fun pl hP => ?_)
    by_cases hs : pl.status = PStatus.Active
    · simp [hs]
    · simp only [hs, if_false]; exact hP
  | sellProp i p price =>
    refine updatePlayer_forall ps i _ h (fun pl hP => ?_)
    by_cases hs : pl.status = PStatus.Active
    · simp [hs]
    · simp only [hs, if_false]; exact hP
  | adjustCash i a =>
    refine updatePlayer_forall ps i _ h (fun pl hP => ?_)
    by_cases hs : pl.status = PStatus.Active
    · simp [hs]
    · simp only [hs, if_false]; exact hP

theorem applyOps_preserves (ops : List GameOp) (ps : List PlayerSt)
    (h : bankruptOwnsNothing ps) : bankruptOwnsNothing (applyOps ps ops) := by
  induction ops generalizing ps with
  | nil => exact h
  | cons op rest ih => exact ih (applyOp ps op) (applyOp_preserves ps op h)

theorem turnOrderAux_active :
    ∀ (ps : List PlayerSt) (n i : Nat), i ∈ turnOrderAux n ps →
      ∃ pl, ps.get? (i - n) = some pl ∧ pl.status = PStatus.Active ∧ n ≤ i := by
  intro ps
  induction ps with
  | nil => intro n i hi; simp [turnOrderAux] at hi
  | cons q qs ih =>
    intro n i hi
    simp only [turnOrderAux] at hi
    by_cases hs : q.status = PStatus.Active
    · simp only [hs, if_true] at hi
      rcases List.mem_cons.mp hi with h1 | h2
      · subst h1
        refine ⟨q, ?_, hs, Nat.le_refl _⟩
        simp
      · obtain ⟨pl, hget, hst, hle⟩ := ih (n + 1) i h2
        refine ⟨pl, ?_, hst, Nat.le_of_succ_le hle⟩
        have hd : i - n = (i - (n + 1)) + 1 := by omega
        rw [hd]
        simpa using hget
    · simp only [hs, if_false] at hi
      obtain ⟨pl, hget, hst, hle⟩ := ih (n + 1) i hi
      refine ⟨pl, ?_, hst, Nat.le_of_succ_le hle⟩
      have hd : i - n = (i - (n + 1)) + 1 := by omega
      rw [hd]
      simpa using hget

/-- Claim C7. After any sequence of game operations starting from a state
in which every Bankrupt player owns nothing, every Bankrupt player still
owns zero properties (bankruptcy released them all), and a player whose
status is Bankrupt does not appear in the round loop's turn order. -/
theorem bankrupt_owns_nothing_and_excluded (ops : List GameOp)
    (ps : List PlayerSt) (h : bankruptOwnsNothing ps) :
    bankruptOwnsNothing (applyOps ps ops) ∧
    ∀ i pl, (applyOps ps ops).get? i = some pl →
      pl.status = PStatus.Bankrupt → i ∉ turnOrder (applyOps ps ops) := by
  refine ⟨applyOps_preserves ops ps h, ?_⟩
  intro i pl hget hst hmem
  obtain ⟨pl2, hget2, hst2, _⟩ := turnOrderAux_active (applyOps ps ops) 0 i hmem
  rw [Nat.sub_zero] at hget2
  rw [hget] at hget2
  injection hget2 with he
  rw [← he] at hst2
  rw [hst] at hst2
  exact PStatus.noConfusion hst2

/-- A concrete two-player state and operation list used to witness C7:
player 0 buys a property, then player 1 goes bankrupt. -/
def demoPs : List PlayerSt :=
  [⟨1500, PStatus.Active, []⟩, ⟨1000, PStatus.Active, ["ul1"]⟩]

theorem bankrupt_owns_nothing_witness :
    bankruptOwnsNothing demoPs ∧
    bankruptOwnsNothing
      (applyOps demoPs [GameOp.buyProp 0 "ul2" 100, GameOp.goBankrupt 1]) ∧
    1 ∉ turnOrder
      (applyOps demoPs [GameOp.buyProp 0 "ul2" 100, GameOp.goBankrupt 1]) := by
  have h0 : bankruptOwnsNothing demoPs := by
    intro pl hpl hst
    simp only [demoPs, List.mem_cons, List.mem_singleton] at hpl
    rcases hpl with h1 | h1 | h1 <;> first
      | (subst h1; exact absurd hst (by decide))
      | simp at h1
  refine ⟨h0,
    (bankrupt_owns_nothing_and_excluded
      [GameOp.buyProp 0 "ul2" 100, GameOp.goBankrupt 1] demoPs h0).1,
    (bankrupt_owns_nothing_and_excluded
      [GameOp.buyProp 0 "ul2" 100, GameOp.goBankrupt 1] demoPs h0).2 1
      ⟨1000, PStatus.Bankrupt, []⟩ ?_ rfl⟩
  rfl

/-- Modelled from the spec: the DUMB computer policy. The source carries
only the interface comment (src lines 16-19, DUMB buys every third
purchasable field it lands on); no implementation exists under src. A
per-player counter is incremented on every purchase offer, whatever the
outcome, and the player buys exactly when the counter is a multiple of
three. Given the current counter and a number of remaining offers, returns
the buy decision for each offer in order. -/
def dumbRun : Nat → Nat → List Bool
  | _, 0 => []
  | c, n + 1 => decide ((c + 1) % 3 = 0) :: dumbRun (c + 1) n

/-- Claim C8. A DUMB player starting from counter c buys the k-th offer
(0-based) exactly when c + k + 1 is a multiple of three; in particular,
offered six opportunities from a fresh counter it buys on opportunities 3
and 6 only. -/
theorem dumb_buys_every_third :
    (∀ c n k, k < n →
      (dumbRun c n).getD k false = decide ((c + k + 1) % 3 = 0)) ∧
    dumbRun 0 6 = [false, false, true, false, false, true] := by
  constructor
  · intro c n
    induction n generalizing c with
    | zero => intro k hk; exact absurd hk (Nat.not_lt_zero k)
    | succ n ih =>
      intro k hk
      cases k with
      | zero => simp [dumbRun]
      | succ k =>
        have hstep : (dumbRun c (n + 1)).getD (k + 1) false =
            (dumbRun (c + 1) n).getD k false := rfl
        rw [hstep, ih (c + 1) k (Nat.lt_of_succ_lt_succ hk)]
        have harith : c + 1 + k + 1 = c + (k + 1) + 1 := by omega
        rw [harith]
  · decide

theorem dumb_buys_every_third_witness :
    2 < 6 ∧ (dumbRun 0 6).getD 2 false = decide ((0 + 2 + 1) % 3 = 0) :=
  ⟨by decide, dumb_buys_every_third.1 0 6 2 (by decide)⟩

/-- The TooManyPlayersException of the source (src lines 94-100), carrying
the configured maximum via getMax. -/
structure TooManyPlayersExc where
  maxPlayers : Nat
deriving DecidableEq, Repr

/-- Modelled from the spec: the configured maximum number of players, 6.
No constant appears under src; only the exception class exists there. -/
def MAX_PLAYERS : Nat := 6

/-- Modelled from the spec: MojaGrubaRyba::addComputerPlayer (declared at
src line 116, no body under src). At the configured maximum it throws
TooManyPlayersException carrying the bound and leaves the player list
unchanged; below the maximum it appends the new player. -/
def addComputerPlayer (players : List String) (newName : String) :
    List String × Option TooManyPlayersExc :=
  if MAX_PLAYERS ≤ players.length then (players, some ⟨MAX_PLAYERS⟩)
  else (players ++ [newName], none)

/-- Claim C9. Adding any player to an engine already holding 6 players
yields the exception carrying the bound 6, and the player list is exactly
the one before the call. -/
theorem add_player_at_max_throws (players : List String) (newName : String)
    (h : players.length = 6) :
    addComputerPlayer players newName = (players, some ⟨6⟩) := by
  simp [addComputerPlayer, MAX_PLAYERS, h]

theorem add_player_at_max_throws_witness :
    (["p1", "p2", "p3", "p4", "p5", "p6"] : List String).length = 6 ∧
    addComputerPlayer ["p1", "p2", "p3", "p4", "p5", "p6"] "p7" =
      (["p1", "p2", "p3", "p4", "p5", "p6"], some ⟨6⟩) :=
  ⟨rfl, add_player_at_max_throws ["p1", "p2", "p3", "p4", "p5", "p6"] "p7" rfl⟩

/-- The economic state observed by a landing: each player's cash, the
property-to-owner association, and each player's property set. -/
structure EconState where
  cash : List Int
  ownerOf : List (String × Nat)
  propSets : List (List String)
deriving DecidableEq, Repr

/-- Embedding of PropertyField::onStepOn (src lines 212-219): the body in
the source is empty, so the landing returns the state unchanged. -/
def PropertyField.onStepOn (propertyName : String) (landing : Nat)
    (s : EconState) : EconState := s

/-- Embedding of PropertyField::onPassBy (src line 216): also an empty
body in the source. -/
def PropertyField.onPassBy (propertyName : String) (landing : Nat)
    (s : EconState) : EconState := s

/-- The landing player owns the property in the given state. -/
def ownsProp (s : EconState) (player : Nat) (propertyName : String) : Prop :=
  (propertyName, player) ∈ s.ownerOf

/-- Claim C10. When the landing player owns the property of the field it
lands on, the landing changes nothing: cash, ownership and every property
set are exactly as before. (In the source the PropertyField::onStepOn body
is empty, so the landing is a no-op.) -/
theorem own_property_landing_no_effect (propertyName : String)
    (landing : Nat) (s : EconState) (h : ownsProp s landing propertyName) :
    (PropertyField.onStepOn propertyName landing s).cash = s.cash ∧
    (PropertyField.onStepOn propertyName landing s).ownerOf = s.ownerOf ∧
    (PropertyField.onStepOn propertyName landing s).propSets = s.propSets :=
  ⟨rfl, rfl, rfl⟩

/-- A concrete one-player state owning the property "ul1". -/
def demoEcon : EconState := ⟨[1500], [("ul1", 0)], [["ul1"]]⟩

theorem own_property_landing_no_effect_witness :
    ownsProp demoEcon 0 "ul1" ∧
    ((PropertyField.onStepOn "ul1" 0 demoEcon).cash = demoEcon.cash ∧
     (PropertyField.onStepOn "ul1" 0 demoEcon).ownerOf = demoEcon.ownerOf ∧
     (PropertyField.onStepOn "ul1" 0 demoEcon).propSets = demoEcon.propSets) := by
  have hOwn : ownsProp demoEcon 0 "ul1" := by
    simp [ownsProp, demoEcon]
  exact ⟨hOwn, own_property_landing_no_effect "ul1" 0 demoEcon hOwn⟩
